import Mathlib

/-!
Shallow embedding of the dynamo-query-builder-typescript core:
the composite-key codec (`SchemaFormatter`), the pagination derivation
(`formatPaginationResult` and friends), and the dynamic expression builder
(`Chain.filter` / `Chain.filterRaw` / `Chain.run`).

Modelling conventions:
* JavaScript string-valued records (`Record<string, string>` and plain
  objects) are insertion-ordered association lists `List (String × String)`;
  property read is first-match lookup, property write (`obj[k] = v`) is
  `jsSet`, and object spread `{...a, ...b}` is `mergeJS`.
* A field read that can yield `undefined` is an `Option`; functions that can
  throw return `Except DynamoError` (or `Option` where the source would crash
  with a TypeError).
* JavaScript truthiness on optional strings/objects is modelled explicitly
  (`jsTruthyStr`, `sepTruthy`): `undefined` and `""` are falsy, any object
  (including `{}`) is truthy.
* AttributeValue marshalling (`marshall`/`unmarshall`) is the identity on
  the string-valued records used by the key codec and is therefore omitted;
  the single network call inside `Chain.run` is modelled by passing the
  store's response as an argument.
-/

set_option autoImplicit false

namespace DQB

/-- A DynamoDB attribute value, restricted to the scalar tags emitted by the
filter builder (`{N}`, `{BOOL}`, `{NULL: true}`, `{S}`). -/
inductive AttributeValue where
  | S : String → AttributeValue
  | N : String → AttributeValue
  | BOOL : Bool → AttributeValue
  | NULL : AttributeValue
  deriving Repr, DecidableEq

/-- The error kinds raised by `DynamoErrorFactory` that the embedded core can
produce (src/types/errors.ts). -/
inductive DynamoError where
  | keySchemaRequired
  | pkRequired
  | separatorRequired (side : String) (len : Nat)
  | keyPartRequired (part : String)
  | skEmpty
  | firstKeyNotIncludedInSK
  | keyNotIncludedInSK (key : String)
  | skNotDefinedInSchema
  | invalidQueryType (q : String)
  deriving Repr, DecidableEq

instance {ε α : Type} [DecidableEq ε] [DecidableEq α] :
    DecidableEq (Except ε α) :=
  fun a b =>
    match a, b with
    | .error e1, .error e2 =>
        if h : e1 = e2 then isTrue (by rw [h])
        else isFalse (by intro hc; injection hc; exact h (by assumption))
    | .error _, .ok _ => isFalse fun h => Except.noConfusion h
    | .ok _, .error _ => isFalse fun h => Except.noConfusion h
    | .ok a1, .ok a2 =>
        if h : a1 = a2 then isTrue (by rw [h])
        else isFalse (by intro hc; injection hc; exact h (by assumption))

/-- An insertion-ordered JavaScript object with string values. -/
abbrev Rec := List (String × String)

/-- A decoded item: a JavaScript object whose properties may hold
`undefined` (`none`), as produced by positional key splitting. -/
abbrev ORec := List (String × Option String)

/-- JavaScript property read `obj[k]`: first matching entry, or `undefined`. -/
def lookup? {β : Type} (l : List (String × β)) (k : String) : Option β :=
  (l.find? fun p => p.1 == k).map Prod.snd

/-- JavaScript property write `obj[k] = v`: replace the value of an existing
key in place, or append a fresh key at the end. -/
def jsSet {β : Type} : List (String × β) → String → β → List (String × β)
  | [], k, v => [(k, v)]
  | (k0, v0) :: rest, k, v =>
      if k0 = k then (k0, v) :: rest else (k0, v0) :: jsSet rest k v

/-- JavaScript object spread `{...old, ...new}`: assign each entry of `new`
onto `old` in order, later assignments winning. -/
def mergeJS {β : Type} (old new : List (String × β)) : List (String × β) :=
  new.foldl (fun acc p => jsSet acc p.1 p.2) old

/-- First option if present, otherwise the second. -/
def optOr {β : Type} (a b : Option β) : Option β :=
  match a with
  | some v => some v
  | none => b

/-- JavaScript `Array.prototype.join(sep)` on strings. -/
def jsJoin (sep : String) : List String → String
  | [] => ""
  | [x] => x
  | x :: y :: xs => x ++ sep ++ jsJoin sep (y :: xs)

/-- Whether `sep` matches the text at the start of `s`. -/
def matchAt : List Char → List Char → Bool
  | [], _ => true
  | _ :: _, [] => false
  | a :: as, b :: bs => a = b && matchAt as bs

/-- Worker for `jsSplit`: scan left to right for the leftmost occurrence of
`sep`, cutting there and continuing after it.  `fuel` only serves to make the
recursion structural; each step consumes at least one character of the
subject string, so `fuel = s.length` never runs out. -/
def jsSplitAux (sep : List Char) : Nat → List Char → List Char → List (List Char)
  | _, [], acc => [acc.reverse]
  | 0, s, acc => [acc.reverse ++ s]
  | fuel + 1, c :: rest, acc =>
      if matchAt sep (c :: rest) then
        acc.reverse :: jsSplitAux sep fuel (List.drop (sep.length - 1) rest) []
      else
        jsSplitAux sep fuel rest (c :: acc)

/-- JavaScript `String.prototype.split(sep)` for a non-empty string
separator (the codec never splits on the empty string, because an empty
separator is JS-falsy and takes the no-split branch). -/
def jsSplit (sep s : String) : List String :=
  if sep = "" then [s]
  else (jsSplitAux sep.data s.data.length s.data []).map List.asString

/-- One side of a key schema (`{name, keys, separator?}`). -/
structure KeyDef where
  name : String
  keys : List String
  separator : Option String
  deriving Repr, DecidableEq

/-- A raw (unvalidated) key schema as handed to the constructor; `pk` may be
absent to model a missing partition-key definition. -/
structure KeySchemaInput where
  pk : Option KeyDef
  sk : Option KeyDef
  preserve : List String := []
  deriving Repr, DecidableEq

/-- A key schema that passed the constructor checks. -/
structure KeySchema where
  pk : KeyDef
  sk : Option KeyDef
  preserve : List String := []
  deriving Repr, DecidableEq

/-- JavaScript truthiness of the optional separator: `undefined` and the
empty string are falsy. -/
def sepTruthy : Option String → Bool
  | none => false
  | some s => !(s == "")

/-- JavaScript truthiness of an optional string field. -/
def jsTruthyStr : Option String → Bool
  | none => false
  | some s => !(s == "")

/-- The `SchemaFormatter` constructor (megaTests2.ts lines 768-784): rejects a
missing schema, a missing `pk`, and any side with more than one key part whose
separator is JS-falsy. -/
def validateKeySchema : Option KeySchemaInput → Except DynamoError KeySchema
  | none => .error .keySchemaRequired
  | some s =>
      match s.pk with
      | none => .error .pkRequired
      | some pkDef =>
          if pkDef.keys.length > 1 ∧ ¬ sepTruthy pkDef.separator then
            .error (.separatorRequired "pk" pkDef.keys.length)
          else
            match s.sk with
            | none => .ok ⟨pkDef, none, s.preserve⟩
            | some skDef =>
                if skDef.keys.length > 1 ∧ ¬ sepTruthy skDef.separator then
                  .error (.separatorRequired "sk" skDef.keys.length)
                else .ok ⟨pkDef, some skDef, s.preserve⟩

/-- `SchemaFormatter.mustGet`: read a key part, throwing `KEY_PART_REQUIRED`
when it is absent. -/
def mustGet (item : Rec) (k : String) : Except DynamoError String :=
  match lookup? item k with
  | some v => .ok v
  | none => .error (.keyPartRequired k)

/-- `SchemaFormatter.formatKey` (lines 799-811): read every declared part in
order and join with the side's separator (nullish-defaulted to `"#"`). -/
def formatKey (item : Rec) (kd : KeyDef) : Except DynamoError String := do
  let vals ← kd.keys.mapM (mustGet item)
  return jsJoin (kd.separator.getD "#") vals

/-- JavaScript `Array.prototype.indexOf`: first index of `a` in `l`, or -1. -/
def jsIndexOf (l : List String) (a : String) : Int :=
  match l with
  | [] => -1
  | x :: xs =>
      if x = a then 0
      else if jsIndexOf xs a = -1 then -1 else jsIndexOf xs a + 1

/-- The comparator used to sort supplied sort-key fields by their declared
index (`(a, b) => indexOf(a) - indexOf(b)`), as a total preorder. -/
def idxLe (parts : List String) (a b : String) : Prop :=
  jsIndexOf parts a ≤ jsIndexOf parts b

instance (parts : List String) : DecidableRel (idxLe parts) :=
  fun _ _ => Int.decLe _ _

instance (parts : List String) : IsTotal String (idxLe parts) :=
  ⟨fun a b => Int.le_total (jsIndexOf parts a) (jsIndexOf parts b)⟩

instance (parts : List String) : IsTrans String (idxLe parts) :=
  ⟨fun _ _ _ h1 h2 => le_trans h1 h2⟩

/-- The loop of `assertPartialOrderSKIsCorrect` from index 1 upward: compare
the remaining declared parts against the remaining (sorted) supplied fields,
stopping with success when either list runs out. -/
def walkSK : List String → List String → Except DynamoError Unit
  | [], _ => .ok ()
  | _, [] => .ok ()
  | s :: ss, o :: os =>
      if o ≠ s then .error (.keyNotIncludedInSK s) else walkSK ss os

/-- `SchemaFormatter.assertPartialOrderSKIsCorrect` (lines 827-851): sort the
supplied field names by declared index (a stable sort, as JS `Array.sort`
with the index comparator), then check emptiness, the first part, and
contiguity. -/
def assertPartialOrderSKIsCorrect (schema : KeySchema) (sk : Rec) :
    Except DynamoError Unit :=
  let skKeysInSchema := (schema.sk.map KeyDef.keys).getD []
  let keysInSK := sk.map Prod.fst
  if keysInSK.length = 0 then .error .skEmpty
  else
    let ordered := List.insertionSort (idxLe skKeysInSchema) keysInSK
    if ordered.head? ≠ skKeysInSchema.head? then .error .firstKeyNotIncludedInSK
    else walkSK skKeysInSchema.tail ordered.tail

/-- `SchemaFormatter.formatPartialOrderedSK` (lines 853-868): validate the
partial order, then encode using `Object.keys(sk)` — the record's own
insertion order — as the part list. -/
def formatPartialOrderedSK (schema : KeySchema) (sk : Rec) :
    Except DynamoError String :=
  match assertPartialOrderSKIsCorrect schema sk with
  | .error e => .error e
  | .ok _ =>
      match schema.sk with
      | none => .error .skNotDefinedInSchema
      | some skDef => formatKey sk ⟨skDef.name, sk.map Prod.fst, skDef.separator⟩

/-- Positional reassembly `side[keys[i]] = parts[i]` used by the decoder;
keys beyond the split result receive `undefined`. -/
def zipParts : List String → List String → ORec
  | [], _ => []
  | k :: ks, [] => (k, none) :: zipParts ks []
  | k :: ks, p :: ps => (k, some p) :: zipParts ks ps

/-- Decode one physical key attribute back into logical fields
(`formatRecordAsItemDto`, the per-side part): with a JS-truthy separator the
string is split and zipped onto the declared parts; otherwise the whole
string is stored under the side's physical attribute name. -/
def decodeSide (kd : KeyDef) (raw : String) : ORec :=
  match kd.separator with
  | some s => if s = "" then [(kd.name, some raw)] else zipParts kd.keys (jsSplit s raw)
  | none => [(kd.name, some raw)]

/-- Conditions under which one schema side decodes back what it encoded:
either the side's separator is JS-falsy and the side consists of a single
part whose name equals the physical attribute name (the decoder writes the
whole string under `kd.name`), or the separator is a single character that
occurs in none of the encoded part values. -/
def sideDecodes (kd : KeyDef) (v : String → String) : Prop :=
  (¬ sepTruthy kd.separator ∧ kd.keys = [kd.name]) ∨
  (∃ c, kd.separator = some ⟨[c]⟩ ∧ ∀ k ∈ kd.keys, c ∉ (v k).data)

/-- View a string-valued record as a decoded item (every field defined). -/
def liftRec (r : Rec) : ORec :=
  r.map fun p => (p.1, some p.2)

/-- `SchemaFormatter.formatRecordAsItemDto` (lines 943-989): rebuild the
logical item from a stored record; `none` models the TypeError raised when a
physical key attribute is missing. -/
def formatRecordAsItemDto (schema : KeySchema) (record : Rec) : Option ORec := do
  let pkRaw ← lookup? record schema.pk.name
  let pkPart := decodeSide schema.pk pkRaw
  match schema.sk with
  | none =>
      let data := record.filter fun p => !(p.1 == schema.pk.name)
      return mergeJS pkPart (liftRec data)
  | some skDef => do
      let skRaw ← lookup? record skDef.name
      let skPart := decodeSide skDef skRaw
      let data := record.filter fun p =>
        !(p.1 == schema.pk.name || p.1 == skDef.name)
      return mergeJS (mergeJS pkPart skPart) (liftRec data)

/-- `SchemaFormatter.formatItemKeysDtoAsRecord` (lines 883-903), minus the
final marshalling: encode both sides of a cursor into the physical key
attribute map. -/
def formatItemKeysDtoAsRecord (schema : KeySchema) (item : Rec) :
    Except DynamoError Rec := do
  let pkVal ← formatKey item schema.pk
  let logical := jsSet [] schema.pk.name pkVal
  match schema.sk with
  | none => return logical
  | some skDef => do
      let skVal ← formatKey item skDef
      return jsSet logical skDef.name skVal

/-- Page direction, carried through from the request. -/
inductive Direction where
  | forward
  | backward
  deriving Repr, DecidableEq

/-- The shape returned once per request (`paginationResult`). -/
structure PaginationResult (α : Type) where
  items : List α
  lastEvaluatedKey : Option α
  firstEvaluatedKey : Option α
  count : Nat
  hasNext : Bool
  hasPrevious : Bool
  direction : Direction
  deriving Repr, DecidableEq

/-- `SchemaFormatter.formatEmptyPaginationResult` (lines 991-1004): both
navigation flags are derived from the single `lastEvaluatedKey` argument. -/
def formatEmptyPaginationResult {α : Type} (direction : Direction)
    (lastEvaluatedKey : Option α) : PaginationResult α :=
  { items := []
    lastEvaluatedKey := lastEvaluatedKey
    firstEvaluatedKey := lastEvaluatedKey
    count := 0
    hasNext := lastEvaluatedKey.isSome
    hasPrevious := lastEvaluatedKey.isSome
    direction := direction }

/-- `SchemaFormatter.formatPaginationResult` (lines 1029-1058).  `limit` is
the value of `this.params.Limit` at call time, i.e. already incremented by
`run`; `items.pop()` becomes `dropLast`. -/
def formatPaginationResult {α : Type} (items : List α) (limit : Nat)
    (direction : Direction) (lastEvaluatedKey oldLastEvaluatedKey : Option α) :
    PaginationResult α :=
  if items.length = 0 then formatEmptyPaginationResult direction lastEvaluatedKey
  else
    let hasPrevious := oldLastEvaluatedKey.isSome
    let hasNext := lastEvaluatedKey.isSome || (items.length == limit)
    let items1 := if items.length = limit then items.dropLast else items
    { items := items1
      lastEvaluatedKey := items1.getLast?
      firstEvaluatedKey := items1.head?
      count := items1.length
      hasNext := hasNext
      hasPrevious := hasPrevious
      direction := direction }

/-- The mutable request accumulator (`CommandInput` in src/types/types.ts). -/
structure CommandInput where
  TableName : String
  IndexName : Option String := none
  ScanIndexForward : Option Bool := none
  ProjectionExpression : Option String := none
  ExclusiveStartKey : Option Rec := none
  KeyConditionExpression : Option String := none
  ExpressionAttributeNames : Option (List (String × String)) := none
  Limit : Nat
  ExpressionAttributeValues : Option (List (String × AttributeValue)) := none
  FilterExpression : Option String := none
  deriving Repr, DecidableEq

/-- A filter contribution handed to `Chain.filterRaw`. -/
structure RawFilterParams where
  FilterExpression : String
  ExpressionAttributeNames : List (String × String)
  ExpressionAttributeValues : List (String × AttributeValue)
  deriving Repr, DecidableEq

/-- The store's reply to one request: an item window plus an optional
continuation key. -/
structure StoreResponse where
  Items : List Rec
  LastEvaluatedKey : Option Rec
  deriving Repr, DecidableEq

/-- Decode an optional physical key into an optional logical cursor; the
outer `Option` is the decoder's failure. -/
def odecode (schema : KeySchema) : Option Rec → Option (Option ORec)
  | none => some none
  | some r => (formatRecordAsItemDto schema r).map some

/-- `Chain.run` (src/query/chain.ts lines 90-129) with the network call
factored out: the stored request's `Limit` is incremented in place before the
request is issued, the response window and both cursors are decoded, and the
page is derived by `formatPaginationResult` called with the incremented
limit.  The first component is the stored request as `run` leaves it. -/
def Chain.run (schema : KeySchema) (params : CommandInput)
    (resp : StoreResponse) : CommandInput × Option (PaginationResult ORec) :=
  let newParams := { params with Limit := params.Limit + 1 }
  let dir := match params.ScanIndexForward with
    | some true => Direction.forward
    | _ => Direction.backward
  let result :=
    match resp.Items.mapM (formatRecordAsItemDto schema),
        odecode schema resp.LastEvaluatedKey,
        odecode schema params.ExclusiveStartKey with
    | some items, some newC, some oldC =>
        some (formatPaginationResult items newParams.Limit dir newC oldC)
    | _, _, _ => none
  (newParams, result)

/-- `Chain.filterRaw` (lines 182-206): append or install the clause; merge
the value table (installing it when absent); but when the name table is
absent it is only initialized to `{}` — the incoming names are not merged. -/
def Chain.filterRaw (params : CommandInput) (f : RawFilterParams) :
    CommandInput :=
  let fe :=
    if jsTruthyStr params.FilterExpression then
      some (params.FilterExpression.getD "" ++ " AND (" ++ f.FilterExpression ++ ")")
    else some f.FilterExpression
  let en := match params.ExpressionAttributeNames with
    | none => some ([] : List (String × String))
    | some old => some (mergeJS old f.ExpressionAttributeNames)
  let ev := match params.ExpressionAttributeValues with
    | none => some f.ExpressionAttributeValues
    | some old => some (mergeJS old f.ExpressionAttributeValues)
  { params with
      FilterExpression := fe
      ExpressionAttributeNames := en
      ExpressionAttributeValues := ev }

/-- A scalar filter literal (string, JS number, boolean, or null). -/
inductive FilterValue where
  | str : String → FilterValue
  | num : Int → FilterValue
  | bool : Bool → FilterValue
  | null : FilterValue
  deriving Repr, DecidableEq

/-- A filter condition: a bare value (equality) or an operator map; entries
carrying `none` model properties explicitly set to `undefined`. -/
inductive FilterCondition where
  | value : FilterValue → FilterCondition
  | ops : List (String × Option FilterValue) → FilterCondition
  deriving Repr, DecidableEq

/-- A filter object in iteration order. -/
abbrev FilterObject := List (String × Option FilterCondition)

/-- `key.replace(/\./g, '_')`. -/
def safeKeyOf (key : String) : String :=
  ⟨key.data.map fun c => if c = '.' then '_' else c⟩

/-- `operator.replace(/[^a-zA-Z0-9]/g, '')`. -/
def sanitizeOp (op : String) : String :=
  ⟨op.data.filter Char.isAlphanum⟩

/-- Literal typing: number, boolean, null, otherwise string via toString. -/
def literalOf : FilterValue → AttributeValue
  | .num n => .N (toString n)
  | .bool b => .BOOL b
  | .null => .NULL
  | .str s => .S s

/-- The inner operator loop of `Chain.filter` (lines 232-252): one clause and
one value assignment per defined operator entry. -/
def buildOps (np safeKey : String) (c : Nat) :
    List (String × Option FilterValue) → List String →
    List (String × AttributeValue) →
    List String × List (String × AttributeValue)
  | [], es, vs => (es, vs)
  | (_, none) :: rest, es, vs => buildOps np safeKey c rest es vs
  | (op, some v) :: rest, es, vs =>
      let vp := ":val_" ++ safeKey ++ "_" ++ toString c ++ "_" ++ sanitizeOp op
      buildOps np safeKey c rest (es ++ [np ++ " " ++ op ++ " " ++ vp])
        (jsSet vs vp (literalOf v))

/-- The main loop of `Chain.filter` (lines 215-269): per-field name
placeholder, per-shape value placeholders, and a counter incremented once per
non-undefined field. -/
def buildFilter : FilterObject → Nat → List String → List (String × String) →
    List (String × AttributeValue) →
    List String × List (String × String) × List (String × AttributeValue)
  | [], _, es, ns, vs => (es, ns, vs)
  | (_, none) :: rest, c, es, ns, vs => buildFilter rest c es ns vs
  | (key, some cond) :: rest, c, es, ns, vs =>
      let safeKey := safeKeyOf key
      let np := "#" ++ safeKey ++ "_" ++ toString c
      let ns1 := jsSet ns np key
      match cond with
      | .ops condList =>
          let r := buildOps np safeKey c condList es vs
          buildFilter rest (c + 1) r.1 ns1 r.2
      | .value v =>
          let vp := ":val_" ++ safeKey ++ "_" ++ toString c
          buildFilter rest (c + 1) (es ++ [np ++ " = " ++ vp]) ns1
            (jsSet vs vp (literalOf v))

/-- `Chain.filter` (lines 208-281): build the clause list and hand it to
`filterRaw` joined with `' AND '`, or leave the request untouched when no
clause was produced. -/
def Chain.filter (params : CommandInput) (fo : FilterObject) : CommandInput :=
  let r := buildFilter fo 0 [] [] []
  if r.1.length > 0 then
    Chain.filterRaw params ⟨jsJoin " AND " r.1, r.2.1, r.2.2⟩
  else params

/-! ### Lemmas about the JavaScript object model -/

theorem lookup_cons_self {β : Type} (k : String) (v : β)
    (rest : List (String × β)) :
    lookup? ((k, v) :: rest) k = some v := by
  unfold lookup?
  rw [List.find?_cons_of_pos _ (by simp)]
  rfl

theorem lookup_cons_ne {β : Type} (k0 : String) (v0 : β)
    (rest : List (String × β)) (k : String) (h : k ≠ k0) :
    lookup? ((k0, v0) :: rest) k = lookup? rest k := by
  unfold lookup?
  rw [List.find?_cons_of_neg _ (by simp [beq_iff_eq, Ne.symm h])]

theorem lookup_jsSet {β : Type} (l : List (String × β)) (k : String) (v : β)
    (k' : String) :
    lookup? (jsSet l k v) k' = if k' = k then some v else lookup? l k' := by
  induction l with
  | nil =>
    by_cases h : k' = k
    · rw [if_pos h, h]
      show lookup? [(k, v)] k = some v
      rw [lookup_cons_self]
    · rw [if_neg h]
      show lookup? [(k, v)] k' = lookup? [] k'
      rw [lookup_cons_ne _ _ _ _ h]
  | cons p rest ih =>
    obtain ⟨k0, v0⟩ := p
    by_cases h0 : k0 = k
    · subst h0
      have hstep : jsSet ((k0, v0) :: rest) k0 v = (k0, v) :: rest := by
        simp [jsSet]
      rw [hstep]
      by_cases h : k' = k0
      · subst h
        rw [lookup_cons_self, if_pos rfl]
      · rw [lookup_cons_ne _ _ _ _ h, if_neg h, lookup_cons_ne _ _ _ _ h]
    · have hstep : jsSet ((k0, v0) :: rest) k v = (k0, v0) :: jsSet rest k v := by
        simp [jsSet, h0]
      rw [hstep]
      by_cases h : k' = k0
      · rw [h, lookup_cons_self, if_neg h0, lookup_cons_self]
      · rw [lookup_cons_ne _ _ _ _ h, ih]
        by_cases hk : k' = k
        · rw [if_pos hk, if_pos hk]
        · rw [if_neg hk, if_neg hk, lookup_cons_ne _ _ _ _ h]

theorem lookup_eq_none {β : Type} (l : List (String × β)) (k : String) :
    lookup? l k = none ↔ k ∉ l.map Prod.fst := by
  induction l with
  | nil => simp [lookup?]
  | cons p rest ih =>
    obtain ⟨k0, v0⟩ := p
    by_cases h : k = k0
    · subst h
      simp [lookup_cons_self]
    · rw [lookup_cons_ne _ _ _ _ h]
      simp [ih, h]

theorem lookup_mergeJS {β : Type} (old new : List (String × β))
    (hd : (new.map Prod.fst).Nodup) (k : String) :
    lookup? (mergeJS old new) k = optOr (lookup? new k) (lookup? old k) := by
  induction new generalizing old with
  | nil => simp [mergeJS, lookup?, optOr]
  | cons p rest ih =>
    obtain ⟨k0, v0⟩ := p
    have hd' : (rest.map Prod.fst).Nodup := (List.nodup_cons.mp hd).2
    have hk0 : k0 ∉ rest.map Prod.fst := (List.nodup_cons.mp hd).1
    have hstep : mergeJS old ((k0, v0) :: rest) = mergeJS (jsSet old k0 v0) rest := rfl
    rw [hstep, ih _ hd']
    by_cases h : k = k0
    · subst h
      rw [(lookup_eq_none rest k).mpr hk0, lookup_cons_self, lookup_jsSet,
        if_pos rfl]
      rfl
    · rw [lookup_cons_ne _ _ _ _ h, lookup_jsSet, if_neg h]

theorem jsSet_append {β : Type} (l : List (String × β)) (k : String) (v : β)
    (h : k ∉ l.map Prod.fst) : jsSet l k v = l ++ [(k, v)] := by
  induction l with
  | nil => rfl
  | cons p rest ih =>
    obtain ⟨k0, v0⟩ := p
    simp only [List.map_cons, List.mem_cons] at h
    push_neg at h
    simp [jsSet, Ne.symm h.1, ih h.2]

theorem mergeJS_append {β : Type} (old new : List (String × β))
    (hd : (new.map Prod.fst).Nodup)
    (hdisj : ∀ k ∈ new.map Prod.fst, k ∉ old.map Prod.fst) :
    mergeJS old new = old ++ new := by
  induction new generalizing old with
  | nil => simp [mergeJS]
  | cons p rest ih =>
    obtain ⟨k0, v0⟩ := p
    have hd' : (rest.map Prod.fst).Nodup := (List.nodup_cons.mp hd).2
    have hk0 : k0 ∉ rest.map Prod.fst := (List.nodup_cons.mp hd).1
    have hstep : mergeJS old ((k0, v0) :: rest) = mergeJS (jsSet old k0 v0) rest := rfl
    rw [hstep, jsSet_append old k0 v0 (hdisj k0 (by simp))]
    rw [ih (old ++ [(k0, v0)]) hd']
    · simp
    · intro k hk
      simp only [List.map_append, List.mem_append, List.map_cons, List.map_nil]
      push_neg
      refine ⟨hdisj k (by simp [hk]), ?_⟩
      simp only [List.mem_singleton]
      intro hc
      exact hk0 (hc ▸ hk)

theorem mapM_mustGet_congr (r1 r2 : Rec) (ks : List String)
    (h : ∀ k ∈ ks, lookup? r1 k = lookup? r2 k) :
    ks.mapM (mustGet r1) = ks.mapM (mustGet r2) := by
  induction ks with
  | nil => rfl
  | cons k rest ih =>
    have hk : mustGet r1 k = mustGet r2 k := by
      simp [mustGet, h k (by simp)]
    simp only [List.mapM_cons, hk, ih fun k' hk' => h k' (by simp [hk'])]

theorem mapM_mustGet (item : Rec) (f : String → String) (ks : List String)
    (h : ∀ k ∈ ks, lookup? item k = some (f k)) :
    ks.mapM (mustGet item) = .ok (ks.map f) := by
  induction ks with
  | nil => rfl
  | cons k rest ih
  =>
    have hk : mustGet item k = .ok (f k) := by simp [mustGet, h k (by simp)]
    have ihr := ih fun k' hk' => h k' (by simp [hk'])
    simp only [List.mapM_cons, hk, ihr, List.map_cons]
    rfl

theorem mapM_mustGet_self (r : Rec) (hnd : (r.map Prod.fst).Nodup) :
    (r.map Prod.fst).mapM (mustGet r) = .ok (r.map Prod.snd) := by
  induction r with
  | nil => rfl
  | cons p rest ih =>
    obtain ⟨k, v⟩ := p
    have hk0 : k ∉ rest.map Prod.fst := (List.nodup_cons.mp hnd).1
    have hd' : (rest.map Prod.fst).Nodup := (List.nodup_cons.mp hnd).2
    have hhead : mustGet ((k, v) :: rest) k = .ok v := by
      simp [mustGet, lookup?, List.find?]
    have htail : (rest.map Prod.fst).mapM (mustGet ((k, v) :: rest)) =
        (rest.map Prod.fst).mapM (mustGet rest) := by
      apply mapM_mustGet_congr
      intro k' hk'
      have hne : k' ≠ k := fun hc => hk0 (hc ▸ hk')
      rw [lookup_cons_ne _ _ _ _ hne]
    simp only [List.map_cons, List.mapM_cons, hhead, htail, ih hd']
    rfl

/-! ### C3: the empty-window page -/

/-- C3 (corrected): when the fetched item list is empty the result is an
empty page whose `hasNext` AND `hasPrevious` both equal whether the store's
continuation cursor (`newCursor`) is defined — `hasPrevious` does not consult
the starting cursor; with no cursors at all everything is false. -/
theorem c3_empty_page {α : Type} (limit : Nat) (dir : Direction)
    (newCursor oldCursor : Option α) :
    (formatPaginationResult [] limit dir newCursor oldCursor).items = [] ∧
    (formatPaginationResult [] limit dir newCursor oldCursor).count = 0 ∧
    (formatPaginationResult [] limit dir newCursor oldCursor).hasNext = newCursor.isSome ∧
    (formatPaginationResult [] limit dir newCursor oldCursor).hasPrevious = newCursor.isSome ∧
    (formatPaginationResult ([] : List α) limit dir none none).hasNext = false ∧
    (formatPaginationResult ([] : List α) limit dir none none).hasPrevious = false := by
  simp [formatPaginationResult, formatEmptyPaginationResult]

/-- C3 counterexample: with an empty window, a supplied starting cursor and
no continuation cursor, the code reports `hasPrevious = false` (the claim
requires `true`); conversely a continuation cursor alone makes
`hasPrevious = true`. -/
theorem c3_counterexample :
    (formatPaginationResult ([] : List Nat) 5 Direction.forward none (some 0)).hasPrevious
        = false ∧
    (formatPaginationResult ([] : List Nat) 5 Direction.forward (some 1) none).hasPrevious
        = true := by
  exact ⟨rfl, rfl⟩

/-! ### C9: the frame of Chain.run over the stored request -/

/-- C9 (corrected): executing `run` increments the stored `Limit` by one and
leaves every other stored request field unchanged; in particular the
cursor attribute `ExclusiveStartKey` is untouched by `run` itself. -/
theorem c9_run_frame (schema : KeySchema) (params : CommandInput)
    (resp : StoreResponse) :
    (Chain.run schema params resp).1.Limit = params.Limit + 1 ∧
    (Chain.run schema params resp).1.TableName = params.TableName ∧
    (Chain.run schema params resp).1.IndexName = params.IndexName ∧
    (Chain.run schema params resp).1.ScanIndexForward = params.ScanIndexForward ∧
    (Chain.run schema params resp).1.ProjectionExpression = params.ProjectionExpression ∧
    (Chain.run schema params resp).1.ExclusiveStartKey = params.ExclusiveStartKey ∧
    (Chain.run schema params resp).1.KeyConditionExpression = params.KeyConditionExpression ∧
    (Chain.run schema params resp).1.ExpressionAttributeNames = params.ExpressionAttributeNames ∧
    (Chain.run schema params resp).1.ExpressionAttributeValues = params.ExpressionAttributeValues ∧
    (Chain.run schema params resp).1.FilterExpression = params.FilterExpression :=
  ⟨rfl, rfl, rfl, rfl, rfl, rfl, rfl, rfl, rfl, rfl⟩

/-- C9 counterexample: `run` does change a stored field other than the
cursor — the stored `Limit` becomes 6 on a request built with `Limit = 5`. -/
theorem c9_counterexample :
    ((Chain.run ⟨⟨"pk", ["id"], none⟩, none, []⟩
        { TableName := "t", Limit := 5 } ⟨[], none⟩).1.Limit = 6) ∧
    ¬ ((Chain.run ⟨⟨"pk", ["id"], none⟩, none, []⟩
        { TableName := "t", Limit := 5 } ⟨[], none⟩).1.Limit = 5) := by
  exact ⟨rfl, by decide⟩

/-! ### C4: value placeholders for two operators on one field -/

/-- C4 (code bug evidence): filtering on `age` with both `>` 18 and `<` 65
produces ONE shared value placeholder `:val_age_0_` — the sanitised operator
suffix is empty for every supported operator — so both clauses reference the
same placeholder, whose value is the `<` literal 65 (the 18 is overwritten);
the expression still contains both clauses joined by AND.  (The name table is
`some []` because of the separate `filterRaw` initialisation bug.) -/
theorem c4_shared_placeholder :
    Chain.filter { TableName := "t", Limit := 10 }
        [("age", some (.ops [(">", some (.num 18)), ("<", some (.num 65))]))] =
      { TableName := "t", Limit := 10,
        FilterExpression := some "#age_0 > :val_age_0_ AND #age_0 < :val_age_0_",
        ExpressionAttributeNames := some [],
        ExpressionAttributeValues := some [(":val_age_0_", .N "65")] } := by
  decide

/-! ### C6: merging a filter contribution into the request -/

/-- C6 (corrected): `filterRaw` appends `' AND (clause)'` when a (truthy)
filter expression exists and installs the clause verbatim otherwise; the
VALUE table is installed or merged with new entries winning and unrelated
old entries preserved; but the NAME table is merged that way only when one
already exists — when absent it is initialised to `{}` and the incoming name
entries are dropped. -/
theorem c6_filterRaw_merge (params : CommandInput) (f : RawFilterParams)
    (hn : (f.ExpressionAttributeNames.map Prod.fst).Nodup)
    (hv : (f.ExpressionAttributeValues.map Prod.fst).Nodup) :
    ((Chain.filterRaw params f).FilterExpression =
      some (if jsTruthyStr params.FilterExpression then
        params.FilterExpression.getD "" ++ " AND (" ++ f.FilterExpression ++ ")"
      else f.FilterExpression)) ∧
    (params.ExpressionAttributeValues = none →
      (Chain.filterRaw params f).ExpressionAttributeValues =
        some f.ExpressionAttributeValues) ∧
    (∀ old, params.ExpressionAttributeValues = some old →
      ∃ m, (Chain.filterRaw params f).ExpressionAttributeValues = some m ∧
        ∀ k, lookup? m k =
          optOr (lookup? f.ExpressionAttributeValues k) (lookup? old k)) ∧
    (params.ExpressionAttributeNames = none →
      (Chain.filterRaw params f).ExpressionAttributeNames = some []) ∧
    (∀ old, params.ExpressionAttributeNames = some old →
      ∃ m, (Chain.filterRaw params f).ExpressionAttributeNames = some m ∧
        ∀ k, lookup? m k =
          optOr (lookup? f.ExpressionAttributeNames k) (lookup? old k)) := by
  refine ⟨?_, ?_, ?_, ?_, ?_⟩
  · by_cases h : jsTruthyStr params.FilterExpression <;>
      simp [Chain.filterRaw, h]
  · intro h
    simp [Chain.filterRaw, h]
  · intro old h
    refine ⟨mergeJS old f.ExpressionAttributeValues, by simp [Chain.filterRaw, h],
      fun k => lookup_mergeJS _ _ hv k⟩
  · intro h
    simp [Chain.filterRaw, h]
  · intro old h
    refine ⟨mergeJS old f.ExpressionAttributeNames, by simp [Chain.filterRaw, h],
      fun k => lookup_mergeJS _ _ hn k⟩

/-- C6 witness: the merge theorem applied to a concrete request that already
carries one name and one value entry. -/
theorem c6_filterRaw_merge_witness :
    ((["#s"] : List String).Nodup ∧ ([":v"] : List String).Nodup) ∧
    ∃ m, (Chain.filterRaw
        { TableName := "t", Limit := 10,
          ExpressionAttributeValues := some [(":old", .S "o")] }
        ⟨"#s = :v", [("#s", "s")], [(":v", .S "x")]⟩).ExpressionAttributeValues
          = some m ∧
      ∀ k, lookup? m k =
        optOr (lookup? [(":v", AttributeValue.S "x")] k)
          (lookup? [(":old", AttributeValue.S "o")] k) := by
  refine ⟨⟨by decide, by decide⟩, ?_⟩
  exact (c6_filterRaw_merge
    { TableName := "t", Limit := 10,
      ExpressionAttributeValues := some [(":old", .S "o")] }
    ⟨"#s = :v", [("#s", "s")], [(":v", .S "x")]⟩
    (by decide) (by decide)).2.2.1 _ rfl

/-- C6 counterexample: on a request with no name table, the incoming name
entry `("#status", "status")` is dropped (the table becomes `{}`), while the
value entry is installed — the claim requires every new name entry to be
present. -/
theorem c6_counterexample :
    (Chain.filterRaw { TableName := "t", Limit := 10 }
        ⟨"attribute_exists(#status)", [("#status", "status")],
          [(":val", .S "active")]⟩).ExpressionAttributeNames = some [] ∧
    (Chain.filterRaw { TableName := "t", Limit := 10 }
        ⟨"attribute_exists(#status)", [("#status", "status")],
          [(":val", .S "active")]⟩).ExpressionAttributeValues
        = some [(":val", .S "active")] := by
  exact ⟨rfl, rfl⟩

/-! ### C8: schema validation at construction time -/

/-- C8 (confirmed): construction rejects a missing schema, a missing
partition-key definition, and any side with more than one key part and no
separator (`SEPARATOR_REQUIRED`, where "no separator" is the source's JS
truthiness test: absent or empty); every other schema — at most one part per
side, or a non-empty separator on each multi-part side — is accepted. -/
theorem validate_some_none (pkDef : KeyDef) (pres : List String) :
    validateKeySchema (some ⟨some pkDef, none, pres⟩) =
      if pkDef.keys.length > 1 ∧ ¬ sepTruthy pkDef.separator then
        .error (.separatorRequired "pk" pkDef.keys.length)
      else .ok ⟨pkDef, none, pres⟩ := rfl

theorem validate_some_some (pkDef skDef : KeyDef) (pres : List String) :
    validateKeySchema (some ⟨some pkDef, some skDef, pres⟩) =
      if pkDef.keys.length > 1 ∧ ¬ sepTruthy pkDef.separator then
        .error (.separatorRequired "pk" pkDef.keys.length)
      else if skDef.keys.length > 1 ∧ ¬ sepTruthy skDef.separator then
        .error (.separatorRequired "sk" skDef.keys.length)
      else .ok ⟨pkDef, some skDef, pres⟩ := rfl

theorem side_cond_iff (kd : KeyDef) :
    ¬ (kd.keys.length > 1 ∧ ¬ sepTruthy kd.separator) ↔
      (kd.keys.length ≤ 1 ∨ sepTruthy kd.separator = true) := by
  constructor
  · intro h
    by_cases h1 : kd.keys.length ≤ 1
    · exact Or.inl h1
    · by_cases h2 : sepTruthy kd.separator = true
      · exact Or.inr h2
      · exact absurd ⟨Nat.not_le.mp h1, h2⟩ h
  · rintro (h1 | h2)
    · exact fun hc => absurd hc.1 (by omega)
    · exact fun hc => hc.2 h2

theorem c8_schema_validation :
    (validateKeySchema none = .error .keySchemaRequired) ∧
    (∀ s : KeySchemaInput, s.pk = none →
      validateKeySchema (some s) = .error .pkRequired) ∧
    (∀ (s : KeySchemaInput) (pkDef : KeyDef), s.pk = some pkDef →
      ((∃ out, validateKeySchema (some s) = .ok out) ↔
        ((pkDef.keys.length ≤ 1 ∨ sepTruthy pkDef.separator = true) ∧
          ∀ skDef, s.sk = some skDef →
            (skDef.keys.length ≤ 1 ∨ sepTruthy skDef.separator = true)))) ∧
    (∀ (s : KeySchemaInput) (pkDef : KeyDef), s.pk = some pkDef →
      pkDef.keys.length > 1 → sepTruthy pkDef.separator = false →
      validateKeySchema (some s) =
        .error (.separatorRequired "pk" pkDef.keys.length)) ∧
    (∀ (s : KeySchemaInput) (pkDef skDef : KeyDef), s.pk = some pkDef →
      s.sk = some skDef →
      (pkDef.keys.length ≤ 1 ∨ sepTruthy pkDef.separator = true) →
      skDef.keys.length > 1 → sepTruthy skDef.separator = false →
      validateKeySchema (some s) =
        .error (.separatorRequired "sk" skDef.keys.length)) := by
  refine ⟨rfl, ?_, ?_, ?_, ?_⟩
  · rintro ⟨pk?, sk?, pres⟩ h
    replace h : pk? = none := h
    subst h
    rfl
  · rintro ⟨pk?, sk?, pres⟩ pkDef h
    replace h : pk? = some pkDef := h
    subst h
    cases sk? with
    | none =>
      rw [validate_some_none]
      by_cases hp : pkDef.keys.length > 1 ∧ ¬ sepTruthy pkDef.separator
      · rw [if_pos hp]
        constructor
        · rintro ⟨out, hout⟩
          exact Except.noConfusion hout
        · rintro ⟨hpk, _⟩
          exact absurd hp (fun hc => ((side_cond_iff pkDef).mpr hpk) hc)
      · rw [if_neg hp]
        exact ⟨fun _ => ⟨(side_cond_iff pkDef).mp hp, fun _ hc => nomatch hc⟩,
          fun _ => ⟨_, rfl⟩⟩
    | some skDef =>
      rw [validate_some_some]
      by_cases hp : pkDef.keys.length > 1 ∧ ¬ sepTruthy pkDef.separator
      · rw [if_pos hp]
        constructor
        · rintro ⟨out, hout⟩
          exact Except.noConfusion hout
        · rintro ⟨hpk, _⟩
          exact absurd hp (fun hc => ((side_cond_iff pkDef).mpr hpk) hc)
      · rw [if_neg hp]
        by_cases hs : skDef.keys.length > 1 ∧ ¬ sepTruthy skDef.separator
        · rw [if_pos hs]
          constructor
          · rintro ⟨out, hout⟩
            exact Except.noConfusion hout
          · rintro ⟨_, hsk⟩
            exact absurd hs (fun hc => ((side_cond_iff skDef).mpr (hsk skDef rfl)) hc)
        · rw [if_neg hs]
          refine ⟨fun _ => ⟨(side_cond_iff pkDef).mp hp, ?_⟩, fun _ => ⟨_, rfl⟩⟩
          intro skDef2 h2
          replace h2 : some skDef = some skDef2 := h2
          injection h2 with h3
          subst h3
          exact (side_cond_iff skDef).mp hs
  · rintro ⟨pk?, sk?, pres⟩ pkDef h hlen hsep
    replace h : pk? = some pkDef := h
    subst h
    have hp : pkDef.keys.length > 1 ∧ ¬ sepTruthy pkDef.separator :=
      ⟨hlen, by simp [hsep]⟩
    cases sk? with
    | none => rw [validate_some_none, if_pos hp]
    | some skDef => rw [validate_some_some, if_pos hp]
  · rintro ⟨pk?, sk?, pres⟩ pkDef skDef h hsk hpk hlen hsep
    replace h : pk? = some pkDef := h
    subst h
    replace hsk : sk? = some skDef := hsk
    subst hsk
    have hp : ¬ (pkDef.keys.length > 1 ∧ ¬ sepTruthy pkDef.separator) :=
      (side_cond_iff pkDef).mpr hpk
    have hs : skDef.keys.length > 1 ∧ ¬ sepTruthy skDef.separator :=
      ⟨hlen, by simp [hsep]⟩
    rw [validate_some_some, if_neg hp, if_pos hs]

/-! ### Lemmas about jsIndexOf and the index sort -/

theorem jsIndexOf_cases (l : List String) (a : String) :
    jsIndexOf l a = -1 ∨ 0 ≤ jsIndexOf l a := by
  induction l with
  | nil => exact Or.inl rfl
  | cons x xs ih =>
    by_cases h : x = a
    · right
      simp [jsIndexOf, h]
    · rcases ih with h2 | h2
      · left
        simp [jsIndexOf, h, h2]
      · right
        have h3 : ¬ jsIndexOf xs a = -1 := by omega
        simp only [jsIndexOf, if_neg h, if_neg h3]
        omega

theorem jsIndexOf_eq_neg_one_iff (l : List String) (a : String) :
    jsIndexOf l a = -1 ↔ a ∉ l := by
  induction l with
  | nil => simp [jsIndexOf]
  | cons x xs ih =>
    by_cases h : x = a
    · subst h
      simp [jsIndexOf]
    · by_cases h2 : jsIndexOf xs a = -1
      · have ha : a ∉ xs := ih.mp h2
        have hax : ¬ a = x := fun hc => h hc.symm
        simp [jsIndexOf, h, h2, ha, hax]
      · have h3 : 0 ≤ jsIndexOf xs a := (jsIndexOf_cases xs a).resolve_left h2
        have hmem : a ∈ xs := by
          by_contra hc
          exact h2 (ih.mpr hc)
        simp only [jsIndexOf, if_neg h, if_neg h2]
        constructor
        · intro hx
          omega
        · intro hx
          exact absurd (List.mem_cons_of_mem x hmem) hx

theorem jsIndexOf_ge (l : List String) (a : String) : -1 ≤ jsIndexOf l a := by
  rcases jsIndexOf_cases l a with h | h <;> omega

theorem jsIndexOf_get (l : List String) (hl : l.Nodup) (i : Fin l.length) :
    jsIndexOf l (l.get i) = ((i : Nat) : Int) := by
  induction l with
  | nil => exact absurd i.isLt (by simp)
  | cons x xs ih =>
    rcases i with ⟨iv, hi⟩
    cases iv with
    | zero => simp [jsIndexOf]
    | succ j =>
      have hj : j < xs.length := by simpa using hi
      have hx : x ∉ xs := (List.nodup_cons.mp hl).1
      have hget : (x :: xs).get ⟨j + 1, hi⟩ = xs.get ⟨j, hj⟩ := rfl
      rw [hget]
      have hne : ¬ x = xs.get ⟨j, hj⟩ := by
        intro hc
        exact hx (hc ▸ List.get_mem xs j hj)
      have hr := ih (List.nodup_cons.mp hl).2 ⟨j, hj⟩
      have hnn : ¬ jsIndexOf xs (xs.get ⟨j, hj⟩) = -1 := by
        rw [hr]
        omega
      simp only [jsIndexOf, if_neg hne, if_neg hnn, hr]
      omega

theorem jsIndexOf_inj (parts : List String) (hp : parts.Nodup) {a b : String}
    (ha : a ∈ parts) (hb : b ∈ parts)
    (h : jsIndexOf parts a = jsIndexOf parts b) : a = b := by
  obtain ⟨i, hi⟩ := List.get_of_mem ha
  obtain ⟨j, hj⟩ := List.get_of_mem hb
  rw [← hi, ← hj, jsIndexOf_get parts hp i, jsIndexOf_get parts hp j] at h
  have hij : (i : Nat) = (j : Nat) := by omega
  rw [← hi, ← hj]
  congr 1
  exact Fin.ext hij

theorem parts_pairwise_idx (parts : List String) (hp : parts.Nodup) :
    parts.Pairwise (fun a b => jsIndexOf parts a < jsIndexOf parts b) := by
  rw [List.pairwise_iff_get]
  intro i j hij
  rw [jsIndexOf_get parts hp i, jsIndexOf_get parts hp j]
  have : (i : Nat) < (j : Nat) := hij
  omega

theorem pairwise_strict_of_le (parts l : List String) (hp : parts.Nodup)
    (hle : l.Pairwise (idxLe parts)) (hnd : l.Nodup)
    (hmem : ∀ x ∈ l, x ∈ parts) :
    l.Pairwise (fun a b => jsIndexOf parts a < jsIndexOf parts b) := by
  refine (hle.and hnd).imp_of_mem ?_
  intro a b ha hb hab
  rcases lt_or_eq_of_le (hab.1 : jsIndexOf parts a ≤ jsIndexOf parts b) with h2 | h2
  · exact h2
  · exact absurd (jsIndexOf_inj parts hp (hmem a ha) (hmem b hb) h2) hab.2

/-- The sorted supplied-field list is exactly the schema's part list filtered
to the supplied set, when the supplied fields are distinct declared parts. -/
theorem ordered_eq_filter (parts fields : List String) (hp : parts.Nodup)
    (hf : fields.Nodup) (hsub : ∀ x ∈ fields, x ∈ parts) :
    List.insertionSort (idxLe parts) fields =
      parts.filter (fun p => decide (p ∈ fields)) := by
  haveI : IsAntisymm String (fun a b => jsIndexOf parts a < jsIndexOf parts b) :=
    ⟨fun a b h1 h2 => absurd (lt_trans h1 h2) (lt_irrefl _)⟩
  have hperm : List.Perm (List.insertionSort (idxLe parts) fields)
      (parts.filter (fun p => decide (p ∈ fields))) := by
    refine (List.perm_insertionSort _ _).trans ?_
    rw [List.perm_ext_iff_of_nodup hf (hp.filter _)]
    intro a
    simp only [List.mem_filter, decide_eq_true_eq]
    exact ⟨fun ha => ⟨hsub a ha, ha⟩, fun ha => ha.2⟩
  have hs1 : List.Sorted (fun a b => jsIndexOf parts a < jsIndexOf parts b)
      (List.insertionSort (idxLe parts) fields) := by
    refine pairwise_strict_of_le parts _ hp (List.sorted_insertionSort _ _) ?_ ?_
    · exact (List.perm_insertionSort (idxLe parts) fields).symm.nodup hf
    · intro x hx
      exact hsub x ((List.perm_insertionSort _ _).mem_iff.mp hx)
  have hs2 : List.Sorted (fun a b => jsIndexOf parts a < jsIndexOf parts b)
      (parts.filter (fun p => decide (p ∈ fields))) :=
    (parts_pairwise_idx parts hp).sublist (List.filter_sublist parts)
  exact List.eq_of_perm_of_sorted hperm hs1 hs2

/-! ### Lemmas about the contiguity walk -/

theorem walkSK_take (ps : List String) (m : Nat) :
    walkSK ps (ps.take m) = .ok () := by
  induction ps generalizing m with
  | nil =>
    rw [List.take_nil]
    simp [walkSK]
  | cons p ps ih =>
    cases m with
    | zero => simp [walkSK]
    | succ m =>
      show walkSK (p :: ps) (p :: ps.take m) = .ok ()
      have hw : walkSK (p :: ps) (p :: ps.take m) = walkSK ps (ps.take m) := by
        simp [walkSK]
      rw [hw]
      exact ih m

theorem walkSK_filter_ok_iff (mem : String → Bool) (ps : List String) :
    walkSK ps (ps.filter mem) = .ok () ↔ ps.filter mem = ps.takeWhile mem := by
  induction ps with
  | nil => simp [walkSK]
  | cons p ps ih =>
    by_cases hm : mem p
    · rw [List.filter_cons_of_pos hm, List.takeWhile_cons_of_pos hm]
      have hw : walkSK (p :: ps) (p :: ps.filter mem) = walkSK ps (ps.filter mem) := by
        simp [walkSK]
      rw [hw, ih]
      constructor
      · intro h
        rw [h]
      · intro h
        injection h
    · rw [List.filter_cons_of_neg (by simp [hm]), List.takeWhile_cons_of_neg (by simp [hm])]
      cases hfl : ps.filter mem with
      | nil => simp [walkSK]
      | cons o os =>
        have ho : mem o := by
          have : o ∈ ps.filter mem := by
            rw [hfl]
            exact List.mem_cons_self o os
          exact (List.mem_filter.mp this).2
        have hop : o ≠ p := by
          intro hc
          rw [hc] at ho
          exact hm ho
        constructor
        · intro h
          exfalso
          simp [walkSK, hop] at h
        · intro h
          exact absurd h (by simp)

theorem walkSK_filter_error (mem : String → Bool) (l₁ : List String) (q : String)
    (l₂ : List String) (h₁ : ∀ x ∈ l₁, mem x = true) (hq : mem q = false)
    (h₂ : ∃ y ∈ l₂, mem y = true) :
    walkSK (l₁ ++ q :: l₂) ((l₁ ++ q :: l₂).filter mem) =
      .error (.keyNotIncludedInSK q) := by
  induction l₁ with
  | nil =>
    simp only [List.nil_append]
    rw [List.filter_cons_of_neg (by simp [hq])]
    cases hfl : l₂.filter mem with
    | nil =>
      exfalso
      obtain ⟨y, hy, hmy⟩ := h₂
      have : y ∈ l₂.filter mem := List.mem_filter.mpr ⟨hy, hmy⟩
      rw [hfl] at this
      exact absurd this (by simp)
    | cons o os =>
      have ho : mem o := by
        have : o ∈ l₂.filter mem := by
          rw [hfl]
          exact List.mem_cons_self o os
        exact (List.mem_filter.mp this).2
      have hop : o ≠ q := by
        intro hc
        rw [hc] at ho
        rw [hq] at ho
        exact Bool.noConfusion ho
      simp [walkSK, hop]
  | cons x l₁ ih =>
    have hx : mem x = true := h₁ x (by simp)
    rw [List.cons_append, List.filter_cons_of_pos hx]
    have hw : walkSK (x :: (l₁ ++ q :: l₂)) (x :: (l₁ ++ q :: l₂).filter mem) =
        walkSK (l₁ ++ q :: l₂) ((l₁ ++ q :: l₂).filter mem) := by
      simp [walkSK]
    rw [hw]
    exact ih fun y hy => h₁ y (by simp [hy])

/-- Unfolding of `assertPartialOrderSKIsCorrect` for a schema with a declared
sort side. -/
theorem assert_unfold (pkDef : KeyDef) (nm : String) (parts : List String)
    (sep : Option String) (pres : List String) (rec : Rec) :
    assertPartialOrderSKIsCorrect ⟨pkDef, some ⟨nm, parts, sep⟩, pres⟩ rec =
      (if (rec.map Prod.fst).length = 0 then .error .skEmpty
       else if (List.insertionSort (idxLe parts) (rec.map Prod.fst)).head? ≠
           parts.head? then
         .error .firstKeyNotIncludedInSK
       else walkSK parts.tail
         (List.insertionSort (idxLe parts) (rec.map Prod.fst)).tail) := rfl

theorem take_takeWhile_length {α : Type} (p : α → Bool) (l : List α) :
    l.take (l.takeWhile p).length = l.takeWhile p := by
  induction l with
  | nil => rfl
  | cons x xs ih =>
    by_cases h : p x
    · rw [List.takeWhile_cons_of_pos h]
      simp [List.take_succ_cons, ih]
    · rw [List.takeWhile_cons_of_neg (by simp [h])]
      rfl

theorem filter_mem_take (l : List String) (hl : l.Nodup) (n : Nat) :
    l.filter (fun x => decide (x ∈ l.take n)) = l.take n := by
  have happ : l.take n ++ l.drop n = l := List.take_append_drop n l
  have hdisj : List.Disjoint (l.take n) (l.drop n) :=
    List.disjoint_take_drop hl (le_refl n)
  calc l.filter (fun x => decide (x ∈ l.take n))
      = (l.take n ++ l.drop n).filter (fun x => decide (x ∈ l.take n)) := by
        rw [happ]
    _ = (l.take n).filter (fun x => decide (x ∈ l.take n)) ++
        (l.drop n).filter (fun x => decide (x ∈ l.take n)) :=
        List.filter_append _ _
    _ = l.take n ++ [] := by
        rw [List.filter_eq_self.mpr (by intro a ha; simpa using ha),
          List.filter_eq_nil_iff.mpr (by
            intro a ha
            simp only [decide_eq_true_eq]
            exact fun hc => hdisj hc ha)]
    _ = l.take n := by simp

/-! ### C5: partial-order validation of sort-key prefixes -/

/-- C5 (confirmed): for a schema with declared sort parts `p1 :: rest` and a
supplied record whose distinct field names are drawn from the declared parts,
validation fails with `SK_EMPTY` on the empty record, fails with
`FIRST_KEY_NOT_INCLUDED_IN_SK` when `p1` is not supplied, succeeds exactly
when the supplied set is a non-empty contiguous prefix of the declared
order, and otherwise fails with `KEY_NOT_INCLUDED_IN_SK` naming the first
missing contiguous part (the first declared part not supplied while some
later part is). -/
theorem c5_partial_order (pkDef : KeyDef) (nm : String) (sep : Option String)
    (pres : List String) (p1 : String) (rest : List String) (rec : Rec)
    (hparts : (p1 :: rest).Nodup)
    (hfields : (rec.map Prod.fst).Nodup)
    (hsub : ∀ x ∈ rec.map Prod.fst, x ∈ p1 :: rest) :
    (rec = [] →
      assertPartialOrderSKIsCorrect ⟨pkDef, some ⟨nm, p1 :: rest, sep⟩, pres⟩ rec =
        .error .skEmpty) ∧
    (rec ≠ [] → p1 ∉ rec.map Prod.fst →
      assertPartialOrderSKIsCorrect ⟨pkDef, some ⟨nm, p1 :: rest, sep⟩, pres⟩ rec =
        .error .firstKeyNotIncludedInSK) ∧
    (assertPartialOrderSKIsCorrect ⟨pkDef, some ⟨nm, p1 :: rest, sep⟩, pres⟩ rec =
        .ok () ↔
      ∃ n, 0 < n ∧ (rec.map Prod.fst).Perm ((p1 :: rest).take n)) ∧
    (∀ l₁ q l₂, rest = l₁ ++ q :: l₂ → p1 ∈ rec.map Prod.fst →
      (∀ x ∈ l₁, x ∈ rec.map Prod.fst) → q ∉ rec.map Prod.fst →
      (∃ y ∈ l₂, y ∈ rec.map Prod.fst) →
      assertPartialOrderSKIsCorrect ⟨pkDef, some ⟨nm, p1 :: rest, sep⟩, pres⟩ rec =
        .error (.keyNotIncludedInSK q)) := by
  have hord := ordered_eq_filter (p1 :: rest) (rec.map Prod.fst) hparts hfields hsub
  refine ⟨?_, ?_, ?_, ?_⟩
  · intro h
    subst h
    rfl
  · intro hne hp1
    have hlen : ¬ (rec.map Prod.fst).length = 0 := by
      intro hc
      rw [List.length_eq_zero] at hc
      exact hne (List.map_eq_nil_iff.mp hc)
    rw [assert_unfold, if_neg hlen, hord,
      List.filter_cons_of_neg (by simp [hp1])]
    have hne2 : rec.map Prod.fst ≠ [] := fun hc => hne (List.map_eq_nil_iff.mp hc)
    obtain ⟨x, hx⟩ := List.exists_mem_of_ne_nil _ hne2
    have hxr : x ∈ rest := by
      rcases List.mem_cons.mp (hsub x hx) with hc | hc
      · exact absurd (hc ▸ hx) hp1
      · exact hc
    have hxf : x ∈ rest.filter (fun p => decide (p ∈ rec.map Prod.fst)) :=
      List.mem_filter.mpr ⟨hxr, by simp [hx]⟩
    cases hfl : rest.filter (fun p => decide (p ∈ rec.map Prod.fst)) with
    | nil =>
      rw [hfl] at hxf
      exact absurd hxf (by simp)
    | cons o os =>
      have ho : o ∈ rest := by
        have hmo : o ∈ rest.filter (fun p => decide (p ∈ rec.map Prod.fst)) := by
          rw [hfl]
          exact List.mem_cons_self o os
        exact (List.mem_filter.mp hmo).1
      have hop : o ≠ p1 := by
        intro hc
        exact (List.nodup_cons.mp hparts).1 (hc ▸ ho)
      rw [if_pos (by simp [hop])]
  · constructor
    · intro hok
      rw [assert_unfold] at hok
      by_cases hl0 : (rec.map Prod.fst).length = 0
      · rw [if_pos hl0] at hok
        exact absurd hok (by simp)
      · rw [if_neg hl0, hord] at hok
        by_cases hmp1 : p1 ∈ rec.map Prod.fst
        · rw [List.filter_cons_of_pos (by simp [hmp1]), if_neg (by simp)] at hok
          simp only [List.tail_cons] at hok
          rw [walkSK_filter_ok_iff] at hok
          refine ⟨(rest.takeWhile (fun p => decide (p ∈ rec.map Prod.fst))).length + 1,
            by omega, ?_⟩
          have hpermfields : (rec.map Prod.fst).Perm
              ((p1 :: rest).filter (fun p => decide (p ∈ rec.map Prod.fst))) := by
            rw [List.perm_ext_iff_of_nodup hfields (hparts.filter _)]
            intro a
            simp only [List.mem_filter, decide_eq_true_eq]
            exact ⟨fun ha => ⟨hsub a ha, ha⟩, fun ha => ha.2⟩
          have htake : (p1 :: rest).take
              ((rest.takeWhile (fun p => decide (p ∈ rec.map Prod.fst))).length + 1) =
              p1 :: rest.take
                (rest.takeWhile (fun p => decide (p ∈ rec.map Prod.fst))).length := rfl
          rw [htake, take_takeWhile_length]
          rw [List.filter_cons_of_pos (by simp [hmp1]), hok] at hpermfields
          exact hpermfields
        · exfalso
          rw [List.filter_cons_of_neg (by simp [hmp1])] at hok
          have hne2 : rec.map Prod.fst ≠ [] := by
            intro hc
            rw [hc] at hl0
            exact hl0 rfl
          obtain ⟨x, hx⟩ := List.exists_mem_of_ne_nil _ hne2
          have hxr : x ∈ rest := by
            rcases List.mem_cons.mp (hsub x hx) with hc | hc
            · exact absurd (hc ▸ hx) hmp1
            · exact hc
          have hxf : x ∈ rest.filter (fun p => decide (p ∈ rec.map Prod.fst)) :=
            List.mem_filter.mpr ⟨hxr, by simp [hx]⟩
          cases hfl : rest.filter (fun p => decide (p ∈ rec.map Prod.fst)) with
          | nil =>
            rw [hfl] at hxf
            exact absurd hxf (by simp)
          | cons o os =>
            rw [hfl] at hok
            have ho : o ∈ rest := by
              have hmo : o ∈ rest.filter (fun p => decide (p ∈ rec.map Prod.fst)) := by
                rw [hfl]
                exact List.mem_cons_self o os
              exact (List.mem_filter.mp hmo).1
            have hop : o ≠ p1 := by
              intro hc
              exact (List.nodup_cons.mp hparts).1 (hc ▸ ho)
            rw [if_pos (by simp [hop])] at hok
            exact absurd hok (by simp)
    · rintro ⟨n, hn, hperm⟩
      have hlenf : (rec.map Prod.fst).length = ((p1 :: rest).take n).length :=
        hperm.length_eq
      have hlen : ¬ (rec.map Prod.fst).length = 0 := by
        rw [hlenf, List.length_take, List.length_cons]
        omega
      have hmp1 : p1 ∈ rec.map Prod.fst := by
        apply hperm.mem_iff.mpr
        cases n with
        | zero => omega
        | succ m => exact List.mem_cons_self _ _
      have hfeq : (p1 :: rest).filter (fun p => decide (p ∈ rec.map Prod.fst)) =
          (p1 :: rest).take n := by
        rw [List.filter_congr (fun x _ => by
          show decide (x ∈ rec.map Prod.fst) =
            decide (x ∈ (p1 :: rest).take n)
          simp only [decide_eq_decide]
          exact hperm.mem_iff)]
        exact filter_mem_take (p1 :: rest) hparts n
      rw [assert_unfold, if_neg hlen, hord, hfeq]
      cases n with
      | zero => omega
      | succ m =>
        have htk : (p1 :: rest).take (m + 1) = p1 :: rest.take m := rfl
        rw [htk, if_neg (by simp)]
        simp only [List.tail_cons]
        exact walkSK_take rest m
  · intro l₁ q l₂ hrest hmp1 hsup hq hey
    have hlen : ¬ (rec.map Prod.fst).length = 0 := by
      intro hc
      rw [List.length_eq_zero] at hc
      rw [hc] at hmp1
      exact absurd hmp1 (by simp)
    rw [assert_unfold, if_neg hlen, hord,
      List.filter_cons_of_pos (by simp [hmp1]), if_neg (by simp)]
    simp only [List.tail_cons]
    subst hrest
    refine walkSK_filter_error _ l₁ q l₂ ?_ ?_ ?_
    · intro x hx
      simp [hsup x hx]
    · simp [hq]
    · obtain ⟨y, hy, hyf⟩ := hey
      exact ⟨y, hy, by simp [hyf]⟩

/-- C5 witness: with sort parts `[A, B, C]`, supplying `{A, C}` skips `B`
while supplying the later part `C`, so validation names `B`. -/
theorem c5_partial_order_witness :
    (("A" :: ["B", "C"]).Nodup ∧
      ((([("A", "a"), ("C", "c")] : Rec).map Prod.fst).Nodup)) ∧
    assertPartialOrderSKIsCorrect
        ⟨⟨"pk", ["p"], none⟩, some ⟨"sk", "A" :: ["B", "C"], some "#"⟩, []⟩
        [("A", "a"), ("C", "c")] =
      .error (.keyNotIncludedInSK "B") := by
  refine ⟨⟨by decide, by decide⟩, ?_⟩
  exact (c5_partial_order ⟨"pk", ["p"], none⟩ "sk" (some "#") [] "A" ["B", "C"]
    [("A", "a"), ("C", "c")] (by decide) (by decide) (by decide)).2.2.2
    [] "B" ["C"] rfl (by decide) (by decide) (by decide)
    ⟨"C", by decide, by decide⟩

/-! ### C10: unknown sort-key fields -/

/-- C10 (confirmed): if the supplied partial sort-key record contains any
field name that is not a declared sort part, validation throws
`FIRST_KEY_NOT_INCLUDED_IN_SK` (a payload-free error that never names the
unknown field), even when a complete valid prefix is also supplied, because
unknown fields have `indexOf = -1` and therefore sort before every declared
part; `formatPartialOrderedSK`, which every range builder calls, propagates
the same error. -/
theorem c10_unknown_field (pkDef : KeyDef) (nm : String) (parts : List String)
    (sep : Option String) (pres : List String) (rec : Rec) (x : String)
    (hx : x ∈ rec.map Prod.fst) (hnot : x ∉ parts) :
    assertPartialOrderSKIsCorrect ⟨pkDef, some ⟨nm, parts, sep⟩, pres⟩ rec =
      .error .firstKeyNotIncludedInSK ∧
    formatPartialOrderedSK ⟨pkDef, some ⟨nm, parts, sep⟩, pres⟩ rec =
      .error .firstKeyNotIncludedInSK := by
  have hlen : ¬ (rec.map Prod.fst).length = 0 := by
    intro h
    rw [List.length_eq_zero] at h
    rw [h] at hx
    exact absurd hx (by simp)
  have hperm := List.perm_insertionSort (idxLe parts) (rec.map Prod.fst)
  have hxin : x ∈ List.insertionSort (idxLe parts) (rec.map Prod.fst) :=
    hperm.mem_iff.mpr hx
  cases hord : List.insertionSort (idxLe parts) (rec.map Prod.fst) with
  | nil =>
    rw [hord] at hxin
    exact absurd hxin (by simp)
  | cons h t =>
    have hsorted : (h :: t).Pairwise (idxLe parts) := by
      rw [← hord]
      exact List.sorted_insertionSort _ _
    have hhne : h ∉ parts := by
      rw [hord] at hxin
      rcases List.mem_cons.mp hxin with hc | hc
      · exact hc ▸ hnot
      · have hle : jsIndexOf parts h ≤ jsIndexOf parts x :=
          (List.pairwise_cons.mp hsorted).1 x hc
        have hxneg : jsIndexOf parts x = -1 :=
          (jsIndexOf_eq_neg_one_iff parts x).mpr hnot
        have hge := jsIndexOf_ge parts h
        have hzero : jsIndexOf parts h = -1 := by omega
        exact (jsIndexOf_eq_neg_one_iff parts h).mp hzero
    have hcond : (h :: t).head? ≠ parts.head? := by
      cases parts with
      | nil => simp
      | cons p ps =>
        simp only [List.head?_cons, ne_eq, Option.some.injEq]
        intro hc
        rw [hc] at hhne
        exact hhne (List.mem_cons_self p ps)
    have hassert : assertPartialOrderSKIsCorrect
        ⟨pkDef, some ⟨nm, parts, sep⟩, pres⟩ rec =
        .error .firstKeyNotIncludedInSK := by
      rw [assert_unfold, if_neg hlen, hord, if_pos hcond]
    refine ⟨hassert, ?_⟩
    unfold formatPartialOrderedSK
    rw [hassert]

/-- C10 witness: the record `{A, X}` contains the valid prefix `{A}` of the
declared parts `[A, B]` plus the unknown field `X`, yet both validation and
the partial encoder throw `FIRST_KEY_NOT_INCLUDED_IN_SK`. -/
theorem c10_unknown_field_witness :
    ("X" ∈ ([("A", "a"), ("X", "x")] : Rec).map Prod.fst ∧ "X" ∉ ["A", "B"]) ∧
    assertPartialOrderSKIsCorrect
        ⟨⟨"pk", ["p"], none⟩, some ⟨"sk", ["A", "B"], some "#"⟩, []⟩
        [("A", "a"), ("X", "x")] =
      .error .firstKeyNotIncludedInSK ∧
    formatPartialOrderedSK
        ⟨⟨"pk", ["p"], none⟩, some ⟨"sk", ["A", "B"], some "#"⟩, []⟩
        [("A", "a"), ("X", "x")] =
      .error .firstKeyNotIncludedInSK := by
  refine ⟨⟨by decide, by decide⟩, ?_, ?_⟩
  · exact (c10_unknown_field ⟨"pk", ["p"], none⟩ "sk" ["A", "B"] (some "#") []
      [("A", "a"), ("X", "x")] "X" (by decide) (by decide)).1
  · exact (c10_unknown_field ⟨"pk", ["p"], none⟩ "sk" ["A", "B"] (some "#") []
      [("A", "a"), ("X", "x")] "X" (by decide) (by decide)).2

/-- C8 witness: a two-part partition key with separator `"#"` is accepted,
and the same side without a separator is rejected with
`SEPARATOR_REQUIRED`. -/
theorem c8_schema_validation_witness :
    (∃ out, validateKeySchema
        (some ⟨some ⟨"pk", ["a", "b"], some "#"⟩, none, []⟩) = .ok out) ∧
    validateKeySchema (some ⟨some ⟨"pk", ["a", "b"], none⟩, none, []⟩) =
      .error (.separatorRequired "pk" 2) := by
  constructor
  · exact (c8_schema_validation.2.2.1 ⟨some ⟨"pk", ["a", "b"], some "#"⟩, none, []⟩
      ⟨"pk", ["a", "b"], some "#"⟩ rfl).mpr
      ⟨Or.inr (by decide), fun _ h => nomatch h⟩
  · exact c8_schema_validation.2.2.2.1 ⟨some ⟨"pk", ["a", "b"], none⟩, none, []⟩
      ⟨"pk", ["a", "b"], none⟩ rfl (by decide) (by decide)

/-! ### Lemmas about splitting a joined key string -/

theorem jsSplitAux_step_nomatch (sep : List Char) (fuel : Nat) (ch : Char)
    (rest acc : List Char) (h : matchAt sep (ch :: rest) = false) :
    jsSplitAux sep (fuel + 1) (ch :: rest) acc =
      jsSplitAux sep fuel rest (ch :: acc) := by
  simp [jsSplitAux, h]

theorem jsSplitAux_step_match (sep : List Char) (fuel : Nat) (ch : Char)
    (rest acc : List Char) (h : matchAt sep (ch :: rest) = true) :
    jsSplitAux sep (fuel + 1) (ch :: rest) acc =
      acc.reverse :: jsSplitAux sep fuel (List.drop (sep.length - 1) rest) [] := by
  simp [jsSplitAux, h]

theorem jsSplitAux_scan (c : Char) :
    ∀ (p : List Char), c ∉ p → ∀ (acc tail : List Char) (fuel : Nat),
      jsSplitAux [c] (p.length + fuel) (p ++ tail) acc =
        jsSplitAux [c] fuel tail (p.reverse ++ acc) := by
  intro p
  induction p with
  | nil =>
    intro _ acc tail fuel
    simp
  | cons d p ih =>
    intro hp acc tail fuel
    have hd : ¬ c = d := fun hc => hp (hc ▸ List.mem_cons_self d p)
    have hml : matchAt [c] (d :: (p ++ tail)) = false := by
      simp [matchAt, hd]
    have hfuel : (d :: p).length + fuel = (p.length + fuel) + 1 := by
      simp only [List.length_cons]
      omega
    rw [hfuel]
    show jsSplitAux [c] ((p.length + fuel) + 1) (d :: (p ++ tail)) acc = _
    rw [jsSplitAux_step_nomatch _ _ _ _ _ hml,
      ih (fun hc => hp (List.mem_cons_of_mem d hc)) (d :: acc) tail fuel]
    simp [List.reverse_cons]

theorem jsSplitAux_join (c : Char) (parts : List String) (hne : parts ≠ [])
    (hfree : ∀ p ∈ parts, c ∉ p.data) :
    jsSplitAux [c] (jsJoin ⟨[c]⟩ parts).data.length (jsJoin ⟨[c]⟩ parts).data [] =
      parts.map String.data := by
  induction parts with
  | nil => exact absurd rfl hne
  | cons p rest ih =>
    cases rest with
    | nil =>
      show jsSplitAux [c] p.data.length p.data [] = [p.data]
      have hs := jsSplitAux_scan c p.data (hfree p (by simp)) [] [] 0
      simpa [jsSplitAux] using hs
    | cons q rest2 =>
      have hjoin : (jsJoin ⟨[c]⟩ (p :: q :: rest2)).data =
          p.data ++ (c :: (jsJoin ⟨[c]⟩ (q :: rest2)).data) := by
        show (p ++ ⟨[c]⟩ ++ jsJoin ⟨[c]⟩ (q :: rest2)).data = _
        simp [String.data_append]
      rw [hjoin]
      have hlen : (p.data ++ (c :: (jsJoin ⟨[c]⟩ (q :: rest2)).data)).length =
          p.data.length + ((jsJoin ⟨[c]⟩ (q :: rest2)).data.length + 1) := by
        simp
      rw [hlen,
        jsSplitAux_scan c p.data (hfree p (by simp)) []
          (c :: (jsJoin ⟨[c]⟩ (q :: rest2)).data)
          ((jsJoin ⟨[c]⟩ (q :: rest2)).data.length + 1),
        jsSplitAux_step_match _ _ _ _ _ (by simp [matchAt])]
      have hdrop : List.drop (([c] : List Char).length - 1)
          (jsJoin ⟨[c]⟩ (q :: rest2)).data = (jsJoin ⟨[c]⟩ (q :: rest2)).data := by
        simp
      rw [hdrop, ih (by simp) (fun x hx => hfree x (by simp [hx]))]
      simp

theorem jsSplit_join (s : String) (c : Char) (hs : s.data = [c])
    (parts : List String) (hne : parts ≠ []) (hfree : ∀ p ∈ parts, c ∉ p.data) :
    jsSplit s (jsJoin s parts) = parts := by
  have hseq : s = ⟨[c]⟩ := by
    cases s
    simp only at hs
    rw [hs]
  subst hseq
  have hsne : ¬ (⟨[c]⟩ : String) = "" := by
    intro hc
    exact List.noConfusion (congrArg String.data hc)
  unfold jsSplit
  rw [if_neg hsne]
  rw [show (⟨[c]⟩ : String).data = [c] from rfl]
  rw [jsSplitAux_join c parts hne hfree]
  have hid : ((fun l => List.asString l) ∘ String.data) = id := by
    funext p
    rfl
  rw [List.map_map, hid, List.map_id]

theorem zipParts_map (keys : List String) (v : String → String) :
    zipParts keys (keys.map v) = keys.map fun k => (k, some (v k)) := by
  induction keys with
  | nil => rfl
  | cons k ks ih => simp [zipParts, ih]

theorem decodeSide_falsy (kd : KeyDef) (raw : String)
    (h : ¬ sepTruthy kd.separator = true) :
    decodeSide kd raw = [(kd.name, some raw)] := by
  unfold decodeSide
  cases hsep : kd.separator with
  | none => rfl
  | some s =>
    rw [hsep] at h
    have hs0 : s = "" := by simpa [sepTruthy] using h
    show (if s = "" then [(kd.name, some raw)]
      else zipParts kd.keys (jsSplit s raw)) = [(kd.name, some raw)]
    rw [if_pos hs0]

theorem decodeSide_some (kd : KeyDef) (s : String) (raw : String)
    (hsep : kd.separator = some s) (hne : ¬ s = "") :
    decodeSide kd raw = zipParts kd.keys (jsSplit s raw) := by
  unfold decodeSide
  rw [hsep]
  show (if s = "" then [(kd.name, some raw)]
    else zipParts kd.keys (jsSplit s raw)) = zipParts kd.keys (jsSplit s raw)
  rw [if_neg hne]

theorem formatKey_mapped (item : Rec) (kd : KeyDef) (v : String → String)
    (hitem : ∀ k ∈ kd.keys, lookup? item k = some (v k)) :
    formatKey item kd = .ok (jsJoin (kd.separator.getD "#") (kd.keys.map v)) := by
  unfold formatKey
  rw [mapM_mustGet item v kd.keys hitem]
  rfl

/-- One schema side round-trips: under `sideDecodes`, decoding the encoded
side key yields exactly the declared parts with their values. -/
theorem decodeSide_formatKey (kd : KeyDef) (item : Rec) (v : String → String)
    (hitem : ∀ k ∈ kd.keys, lookup? item k = some (v k))
    (hgood : sideDecodes kd v) :
    ∃ raw, formatKey item kd = .ok raw ∧
      decodeSide kd raw = kd.keys.map (fun k => (k, some (v k))) := by
  refine ⟨jsJoin (kd.separator.getD "#") (kd.keys.map v),
    formatKey_mapped item kd v hitem, ?_⟩
  rcases hgood with ⟨hsept, hkeys⟩ | ⟨c, hsepeq, hfree⟩
  · rw [decodeSide_falsy kd _ hsept, hkeys]
    rfl
  · have hsne : ¬ (⟨[c]⟩ : String) = "" := by
      intro hc
      exact List.noConfusion (congrArg String.data hc)
    rw [decodeSide_some kd ⟨[c]⟩ _ hsepeq hsne, hsepeq]
    show zipParts kd.keys (jsSplit ⟨[c]⟩ (jsJoin ⟨[c]⟩ (kd.keys.map v))) = _
    cases hk : kd.keys with
    | nil => rfl
    | cons k0 ks =>
      have hmapne : (k0 :: ks).map v ≠ [] := by simp
      have hfree2 : ∀ p ∈ (k0 :: ks).map v, c ∉ p.data := by
        intro p hp
        obtain ⟨k, hkmem, rfl⟩ := List.mem_map.mp hp
        exact hfree k (hk ▸ hkmem)
      rw [jsSplit_join ⟨[c]⟩ c rfl ((k0 :: ks).map v) hmapne hfree2]
      exact zipParts_map (k0 :: ks) v

theorem map_fst_mkpairs (l : List String) (v : String → String) :
    (l.map fun k => (k, some (v k))).map Prod.fst = l := by
  induction l with
  | nil => rfl
  | cons k ks ih => simp [ih]

theorem decode_one_attr (pkDef : KeyDef) (pres : List String) (rawP : String) :
    formatRecordAsItemDto ⟨pkDef, none, pres⟩ [(pkDef.name, rawP)] =
      some (decodeSide pkDef rawP) := by
  unfold formatRecordAsItemDto
  rw [lookup_cons_self]
  show some (mergeJS (decodeSide pkDef rawP)
      (liftRec (List.filter (fun p => !(p.1 == pkDef.name))
        [(pkDef.name, rawP)]))) = some (decodeSide pkDef rawP)
  have hfilt : List.filter (fun p => !(p.1 == pkDef.name))
      ([(pkDef.name, rawP)] : Rec) = [] := by
    simp [List.filter]
  rw [hfilt]
  rfl

theorem decode_two_attrs (pkDef skDef : KeyDef) (pres : List String)
    (rawP rawS : String) (hname : pkDef.name ≠ skDef.name) :
    formatRecordAsItemDto ⟨pkDef, some skDef, pres⟩
        [(pkDef.name, rawP), (skDef.name, rawS)] =
      some (mergeJS (decodeSide pkDef rawP) (decodeSide skDef rawS)) := by
  unfold formatRecordAsItemDto
  rw [lookup_cons_self]
  have hlook2 : lookup? ([(pkDef.name, rawP), (skDef.name, rawS)] : Rec)
      skDef.name = some rawS := by
    rw [lookup_cons_ne _ _ _ _ (Ne.symm hname), lookup_cons_self]
  show Option.bind
      (lookup? ([(pkDef.name, rawP), (skDef.name, rawS)] : Rec) skDef.name)
      (fun skRaw =>
        some (mergeJS (mergeJS (decodeSide pkDef rawP) (decodeSide skDef skRaw))
          (liftRec (List.filter
            (fun p => !(p.1 == pkDef.name || p.1 == skDef.name))
            [(pkDef.name, rawP), (skDef.name, rawS)])))) =
    some (mergeJS (decodeSide pkDef rawP) (decodeSide skDef rawS))
  rw [hlook2]
  show some (mergeJS (mergeJS (decodeSide pkDef rawP) (decodeSide skDef rawS))
      (liftRec (List.filter (fun p => !(p.1 == pkDef.name || p.1 == skDef.name))
        [(pkDef.name, rawP), (skDef.name, rawS)]))) =
    some (mergeJS (decodeSide pkDef rawP) (decodeSide skDef rawS))
  have hfilt : List.filter (fun p => !(p.1 == pkDef.name || p.1 == skDef.name))
      ([(pkDef.name, rawP), (skDef.name, rawS)] : Rec) = [] := by
    simp [List.filter]
  rw [hfilt]
  rfl

/-! ### C2: the cursor round-trip -/

/-- C2 (corrected): the round-trip `decode (encode record) = record` holds
for a fully-populated logical key record provided every schema side
satisfies `sideDecodes`: its separator is a single character absent from the
encoded values, or — when the separator is JS-falsy — the side has exactly
one part named like its physical attribute (because the decoder's
no-separator branch stores the value under the physical attribute name);
additionally the two physical attribute names must differ and the declared
parts be distinct.  The decoded record lists the declared parts in schema
order with exactly the original values. -/
theorem c2_roundtrip (pkDef : KeyDef) (skDef? : Option KeyDef)
    (pres : List String) (item : Rec) (v : String → String)
    (hpk : sideDecodes pkDef v)
    (hsk : ∀ kd, skDef? = some kd → sideDecodes kd v)
    (hnames : ∀ kd, skDef? = some kd → pkDef.name ≠ kd.name)
    (hnd : (pkDef.keys ++ (skDef?.map KeyDef.keys).getD []).Nodup)
    (hitem : ∀ k ∈ pkDef.keys ++ (skDef?.map KeyDef.keys).getD [],
      lookup? item k = some (v k)) :
    ∃ phys, formatItemKeysDtoAsRecord ⟨pkDef, skDef?, pres⟩ item = .ok phys ∧
      formatRecordAsItemDto ⟨pkDef, skDef?, pres⟩ phys =
        some ((pkDef.keys ++ (skDef?.map KeyDef.keys).getD []).map
          fun k => (k, some (v k))) := by
  cases skDef? with
  | none =>
    obtain ⟨rawP, hfkP, hdecP⟩ := decodeSide_formatKey pkDef item v
      (fun k hk => hitem k (by simpa using hk)) hpk
    refine ⟨[(pkDef.name, rawP)], ?_, ?_⟩
    · unfold formatItemKeysDtoAsRecord
      rw [hfkP]
      rfl
    · rw [decode_one_attr pkDef pres rawP, hdecP]
      simp
  | some skDef =>
    obtain ⟨rawP, hfkP, hdecP⟩ := decodeSide_formatKey pkDef item v
      (fun k hk => hitem k (List.mem_append_left _ hk)) hpk
    obtain ⟨rawS, hfkS, hdecS⟩ := decodeSide_formatKey skDef item v
      (fun k hk => hitem k (List.mem_append_right _ hk)) (hsk skDef rfl)
    have hnm := hnames skDef rfl
    have hnd2 : (pkDef.keys ++ skDef.keys).Nodup := hnd
    refine ⟨[(pkDef.name, rawP), (skDef.name, rawS)], ?_, ?_⟩
    · unfold formatItemKeysDtoAsRecord
      rw [hfkP]
      show Except.bind (formatKey item skDef) (fun skVal =>
        Except.ok (jsSet (jsSet [] pkDef.name rawP) skDef.name skVal)) =
        Except.ok [(pkDef.name, rawP), (skDef.name, rawS)]
      rw [hfkS]
      show Except.ok (jsSet (jsSet [] pkDef.name rawP) skDef.name rawS) =
        Except.ok [(pkDef.name, rawP), (skDef.name, rawS)]
      rw [show jsSet (jsSet ([] : Rec) pkDef.name rawP) skDef.name rawS =
        [(pkDef.name, rawP), (skDef.name, rawS)] from by simp [jsSet, hnm]]
    · rw [decode_two_attrs pkDef skDef pres rawP rawS hnm, hdecP, hdecS]
      have hkeysS : ((skDef.keys.map fun k => (k, some (v k))).map Prod.fst) =
          skDef.keys := map_fst_mkpairs skDef.keys v
      have hkeysP : ((pkDef.keys.map fun k => (k, some (v k))).map Prod.fst) =
          pkDef.keys := map_fst_mkpairs pkDef.keys v
      have hdisj : List.Disjoint pkDef.keys skDef.keys :=
        List.disjoint_of_nodup_append hnd2
      have hsknod : skDef.keys.Nodup := (List.nodup_append.mp hnd2).2.1
      rw [mergeJS_append _ _ (by rw [hkeysS]; exact hsknod) (by
        rw [hkeysS, hkeysP]
        intro k hk hkp
        exact hdisj hkp hk)]
      simp

/-- C2 counterexample: two concrete failures of the claim as stated.  First,
a single-part partition key `id` with physical attribute name `PK` and no
separator: decoding maps the value to `PK`, not to `id`.  Second, a
two-part side with separator `#` and a value containing `#`: the split
re-segments the key, returning `x`/`y` instead of `x#y`/`z`. -/
theorem c2_counterexample :
    (formatItemKeysDtoAsRecord ⟨⟨"PK", ["id"], none⟩, none, []⟩ [("id", "x")] =
        .ok [("PK", "x")] ∧
      formatRecordAsItemDto ⟨⟨"PK", ["id"], none⟩, none, []⟩ [("PK", "x")] =
        some [("PK", some "x")] ∧
      ([("PK", some "x")] : ORec) ≠ [("id", some "x")]) ∧
    (formatItemKeysDtoAsRecord ⟨⟨"pk", ["a", "b"], some "#"⟩, none, []⟩
        [("a", "x#y"), ("b", "z")] = .ok [("pk", "x#y#z")] ∧
      formatRecordAsItemDto ⟨⟨"pk", ["a", "b"], some "#"⟩, none, []⟩
        [("pk", "x#y#z")] = some [("a", some "x"), ("b", some "y")] ∧
      ([("a", some "x"), ("b", some "y")] : ORec) ≠
        [("a", some "x#y"), ("b", some "z")]) := by
  exact ⟨⟨by decide, by decide, by decide⟩, ⟨by decide, by decide, by decide⟩⟩

/-- C2 witness: the round-trip theorem applied to a schema with a two-part
`#`-separated partition key and a single-part sort key named after its
field, on the record `{a: a1, b: b1, c: c1}`. -/
theorem c2_roundtrip_witness :
    (∀ k ∈ (["a", "b"] ++ ["c"] : List String),
      lookup? ([("a", "a1"), ("b", "b1"), ("c", "c1")] : Rec) k =
        some (k ++ "1")) ∧
    ∃ phys, formatItemKeysDtoAsRecord
        ⟨⟨"pk", ["a", "b"], some "#"⟩, some ⟨"c", ["c"], none⟩, []⟩
        [("a", "a1"), ("b", "b1"), ("c", "c1")] = .ok phys ∧
      formatRecordAsItemDto
        ⟨⟨"pk", ["a", "b"], some "#"⟩, some ⟨"c", ["c"], none⟩, []⟩ phys =
        some ((["a", "b"] ++ ["c"]).map fun k => (k, some (k ++ "1"))) := by
  constructor
  · decide
  · exact c2_roundtrip ⟨"pk", ["a", "b"], some "#"⟩ (some ⟨"c", ["c"], none⟩)
      [] [("a", "a1"), ("b", "b1"), ("c", "c1")] (fun k => k ++ "1")
      (Or.inr ⟨'#', rfl, by decide⟩)
      (fun kd hkd => by
        injection hkd with h
        subst h
        exact Or.inl ⟨by decide, rfl⟩)
      (fun kd hkd => by
        injection hkd with h
        subst h
        decide)
      (by decide) (by decide)

/-! ### C7: partial sort-key encoding order -/

/-- C7 (corrected): when validation passes, `formatPartialOrderedSK` joins
the supplied values with the side's separator in the order the fields appear
in the supplied record (`Object.keys` insertion order), NOT in the schema's
declared part order; it agrees with the declared order exactly when the
record already lists its fields in schema order. -/
theorem c7_record_order (pkDef : KeyDef) (nm : String) (parts : List String)
    (sep : Option String) (pres : List String) (rec : Rec)
    (hnd : (rec.map Prod.fst).Nodup)
    (hok : assertPartialOrderSKIsCorrect ⟨pkDef, some ⟨nm, parts, sep⟩, pres⟩ rec =
      .ok ()) :
    formatPartialOrderedSK ⟨pkDef, some ⟨nm, parts, sep⟩, pres⟩ rec =
      .ok (jsJoin (sep.getD "#") (rec.map Prod.snd)) := by
  unfold formatPartialOrderedSK
  rw [hok]
  show formatKey rec ⟨nm, rec.map Prod.fst, sep⟩ = _
  unfold formatKey
  rw [mapM_mustGet_self rec hnd]
  rfl

/-- C7 counterexample: with declared sort parts `[A, B]` and separator `#`,
the record supplied in the order `{B, A}` passes validation but encodes as
`b#a`, not the schema-ordered `a#b` that the claim requires. -/
theorem c7_counterexample :
    formatPartialOrderedSK
        ⟨⟨"pk", ["p"], none⟩, some ⟨"sk", ["A", "B"], some "#"⟩, []⟩
        [("B", "b"), ("A", "a")] = .ok "b#a" ∧
    (Except.ok "b#a" : Except DynamoError String) ≠ .ok "a#b" := by
  exact ⟨by decide, by decide⟩

/-- C7 witness: the amended theorem applied to a record listing its fields
in schema order, where the record-order join coincides with `a#b`. -/
theorem c7_record_order_witness :
    ((([("A", "a"), ("B", "b")] : Rec).map Prod.fst).Nodup) ∧
    formatPartialOrderedSK
        ⟨⟨"pk", ["p"], none⟩, some ⟨"sk", ["A", "B"], some "#"⟩, []⟩
        [("A", "a"), ("B", "b")] = .ok (jsJoin "#" ["a", "b"]) := by
  constructor
  · decide
  · exact c7_record_order ⟨"pk", ["p"], none⟩ "sk" ["A", "B"] (some "#") []
      [("A", "a"), ("B", "b")] (by decide) (by decide)

/-! ### C1: the over-fetch-by-one pagination derivation -/

theorem formatPaginationResult_nonempty {α : Type} (items : List α)
    (limit : Nat) (dir : Direction) (newC oldC : Option α) (hne : items ≠ []) :
    formatPaginationResult items limit dir newC oldC =
      { items := if items.length = limit then items.dropLast else items
        lastEvaluatedKey :=
          (if items.length = limit then items.dropLast else items).getLast?
        firstEvaluatedKey :=
          (if items.length = limit then items.dropLast else items).head?
        count := (if items.length = limit then items.dropLast else items).length
        hasNext := newC.isSome || (items.length == limit)
        hasPrevious := oldC.isSome
        direction := dir } := by
  unfold formatPaginationResult
  rw [if_neg (by simpa [List.length_eq_zero] using hne)]

/-- C1 (confirmed): `run` issues the request with the stored limit already
incremented (caller limit `N` becomes `N + 1`) and derives the page from the
decoded window: for a non-empty decoded item list, `hasPrevious` is true iff
the starting cursor is defined, `hasNext` is true iff the continuation
cursor is defined or the window holds exactly `N + 1` items, in which case
the over-fetch sentinel (the last item) is dropped before `count` and
`items` are computed, and `firstEvaluatedKey`/`lastEvaluatedKey` are the
first and last items remaining after the trim. -/
theorem c1_overfetch_pagination (schema : KeySchema) (params : CommandInput)
    (resp : StoreResponse) (decoded : List ORec) (newC oldC : Option ORec)
    (hitems : resp.Items.mapM (formatRecordAsItemDto schema) = some decoded)
    (hnew : odecode schema resp.LastEvaluatedKey = some newC)
    (hold : odecode schema params.ExclusiveStartKey = some oldC)
    (hne : decoded ≠ []) :
    ∃ res, (Chain.run schema params resp).2 = some res ∧
      res.hasPrevious = oldC.isSome ∧
      res.hasNext = (newC.isSome || (decoded.length == params.Limit + 1)) ∧
      res.items = (if decoded.length = params.Limit + 1 then decoded.dropLast
        else decoded) ∧
      res.count = res.items.length ∧
      res.firstEvaluatedKey = res.items.head? ∧
      res.lastEvaluatedKey = res.items.getLast? := by
  refine ⟨formatPaginationResult decoded (params.Limit + 1)
    (match params.ScanIndexForward with
      | some true => Direction.forward
      | _ => Direction.backward) newC oldC, ?_, ?_, ?_, ?_, ?_, ?_, ?_⟩
  · show (Chain.run schema params resp).2 = _
    unfold Chain.run
    rw [hitems, hnew, hold]
  · rw [formatPaginationResult_nonempty _ _ _ _ _ hne]
  · rw [formatPaginationResult_nonempty _ _ _ _ _ hne]
  · rw [formatPaginationResult_nonempty _ _ _ _ _ hne]
  · rw [formatPaginationResult_nonempty _ _ _ _ _ hne]
  · rw [formatPaginationResult_nonempty _ _ _ _ _ hne]
  · rw [formatPaginationResult_nonempty _ _ _ _ _ hne]

/-- C1 witness: caller limit 1, a two-item window (the over-fetch sentinel)
and a continuation key; the page drops the sentinel, reports one item, and
sets both navigation flags from the cursors. -/
theorem c1_overfetch_pagination_witness :
    (([[("pk", "a")], [("pk", "b")]] : List Rec).mapM
        (formatRecordAsItemDto ⟨⟨"pk", ["id"], none⟩, none, []⟩) =
      some [[("pk", some "a")], [("pk", some "b")]]) ∧
    ∃ res, (Chain.run ⟨⟨"pk", ["id"], none⟩, none, []⟩
        { TableName := "t", Limit := 1 }
        ⟨[[("pk", "a")], [("pk", "b")]], some [("pk", "b")]⟩).2 = some res ∧
      res.hasPrevious = (none : Option ORec).isSome ∧
      res.hasNext = ((some [("pk", some "b")] : Option ORec).isSome ||
        (([[("pk", some "a")], [("pk", some "b")]] : List ORec).length == 1 + 1)) ∧
      res.items =
        (if ([[("pk", some "a")], [("pk", some "b")]] : List ORec).length = 1 + 1
          then ([[("pk", some "a")], [("pk", some "b")]] : List ORec).dropLast
          else [[("pk", some "a")], [("pk", some "b")]]) ∧
      res.count = res.items.length ∧
      res.firstEvaluatedKey = res.items.head? ∧
      res.lastEvaluatedKey = res.items.getLast? := by
  constructor
  · decide
  · exact c1_overfetch_pagination ⟨⟨"pk", ["id"], none⟩, none, []⟩
      { TableName := "t", Limit := 1 }
      ⟨[[("pk", "a")], [("pk", "b")]], some [("pk", "b")]⟩
      [[("pk", some "a")], [("pk", some "b")]]
      (some [("pk", some "b")]) none
      (by decide) (by decide) (by decide) (by decide)

end DQB
